import Mathlib

/-!
Verification of the minimum linear inverse-solution engine implied by the
notebook `2b-Inverse_source_localization_MNE_dSPM_sLORETA.ipynb`.

The notebook is a sequence of calls into a numerical library
(`mne.compute_covariance`, `mne.minimum_norm.make_inverse_operator`,
`mne.minimum_norm.apply_inverse` / `apply_inverse_raw` / `apply_inverse_epochs`,
`stc.in_label`, `mne.label_sign_flip`, plus `numpy` averaging).  The library
code itself is not part of the repository, so the numerical core is modelled
here from the specification of the engine (whitener, inverse-operator builder,
inverse applier, label utilities), over the real numbers, with the
eigendecomposition of the noise covariance and the singular value decomposition
of the whitened forward model carried as data (the specification states that
the covariance stores its eigendecomposition and the operator stores its SVD
factors, since both are produced once at build time).
-/

namespace InverseEngine

noncomputable section

open Matrix

variable {m p r T q n nOri : ℕ}

/-! ### Data model -/

/-- Modelled from the spec: a forward (leadfield) model.  Rows are sensors,
columns are source locations with three orientation components each
(free-orientation leadfield as loaded, `surf_ori=True`), plus the ordered
channel identifiers. -/
structure Forward (m p : ℕ) where
  channels : List ℕ
  gain : Matrix (Fin m) (Fin p × Fin 3) ℝ

/-- Modelled from the spec: a noise covariance over sensor channels together
with the eigen-decomposition used for whitening (the spec's data model stores
the eigen-decomposition inside the NoiseCovariance). -/
structure NoiseCov (n : ℕ) where
  channels : List ℕ
  mat : Matrix (Fin n) (Fin n) ℝ
  eigvec : Matrix (Fin n) (Fin n) ℝ
  eigval : Fin n → ℝ

/-- An eigenvalue is retained when it lies above the regularization floor;
eigenvalues at or below the floor are discarded (rank reduction). -/
def NoiseCov.retained (cov : NoiseCov n) (floor : ℝ) (i : Fin n) : Prop :=
  floor < cov.eigval i

instance (cov : NoiseCov n) (floor : ℝ) (i : Fin n) :
    Decidable (cov.retained floor i) := by
  unfold NoiseCov.retained
  infer_instance

/-- Modelled from the spec: the whitening transform
`eigvec * diag (1 / sqrt (max eigval floor)) * eigvecᵀ` restricted to the
retained rank (discarded eigenvalues contribute a zero diagonal entry). -/
def whitenMat (cov : NoiseCov n) (floor : ℝ) : Matrix (Fin n) (Fin n) ℝ :=
  cov.eigvec *
    Matrix.diagonal (fun i =>
      if cov.retained floor i then 1 / Real.sqrt (max (cov.eigval i) floor) else 0) *
    cov.eigvecᵀ

/-- Modelled from the spec: the inverse of the whitening transform restricted
to the retained rank, `eigvec * diag (sqrt (max eigval floor)) * eigvecᵀ` on
retained components and zero on discarded ones. -/
def unwhitenMat (cov : NoiseCov n) (floor : ℝ) : Matrix (Fin n) (Fin n) ℝ :=
  cov.eigvec *
    Matrix.diagonal (fun i =>
      if cov.retained floor i then Real.sqrt (max (cov.eigval i) floor) else 0) *
    cov.eigvecᵀ

/-- Orthogonal projection onto the retained eigen-subspace of the covariance:
the component of the data surviving the whitening round trip. -/
def retainedProj (cov : NoiseCov n) (floor : ℝ) : Matrix (Fin n) (Fin n) ℝ :=
  cov.eigvec *
    Matrix.diagonal (fun i => if cov.retained floor i then (1 : ℝ) else 0) *
    cov.eigvecᵀ

/-- Product of two eigvec-sandwiched diagonal matrices collapses to the
sandwich of the pointwise product, when the sandwiching matrix has orthonormal
columns. -/
theorem sandwich_mul {ι κ : Type*} [Fintype ι] [Fintype κ] [DecidableEq κ]
    (V : Matrix ι κ ℝ) (hV : Vᵀ * V = 1) (f g : κ → ℝ) :
    (V * Matrix.diagonal f * Vᵀ) * (V * Matrix.diagonal g * Vᵀ) =
      V * Matrix.diagonal (fun i => f i * g i) * Vᵀ := by
  have h1 : (V * Matrix.diagonal f * Vᵀ) * (V * Matrix.diagonal g * Vᵀ) =
      V * (Matrix.diagonal f * (Vᵀ * V) * Matrix.diagonal g) * Vᵀ := by
    simp only [Matrix.mul_assoc]
  rw [h1, hV, Matrix.mul_one, Matrix.diagonal_mul_diagonal]

/-! ### Inverse operator and applier -/

/-- Modelled from the spec: the three methods accepted by the applier. -/
inductive Method
  | MNE
  | dSPM
  | sLORETA

/-- Modelled from the spec: a built inverse operator in factored form.  The
builder stores the SVD factors of the whitened, prior-weighted forward model
(`m` sensors, `p` source locations with `nOri` orientation components each,
`r` singular components): `Usen` holds the sensor-side singular vectors,
`sing` the singular values, `Vsrc` the source-side singular vectors, so the
whitened weighted forward model is `Usen * diag sing * Vsrcᵀ`.  The operator
also carries the whitening transform and the number of averages `nave0` the
operator was built for. -/
structure InvOp (m p nOri r : ℕ) where
  channels : List ℕ
  Usen : Matrix (Fin m) (Fin r) ℝ
  sing : Fin r → ℝ
  Vsrc : Matrix (Fin p × Fin nOri) (Fin r) ℝ
  whitener : Matrix (Fin m) (Fin m) ℝ
  nave0 : ℕ

/-- Modelled from the spec: the regularized pseudo-inverse solve in factored
form, `Vsrc * diag (s / (s^2 + lambda2)) * Usenᵀ`, mapping whitened sensor
data to the MNE source estimate (step 2 of the applier). -/
def kernel (op : InvOp m p nOri r) (lam2 : ℝ) :
    Matrix (Fin p × Fin nOri) (Fin m) ℝ :=
  op.Vsrc *
    Matrix.diagonal (fun i => op.sing i / (op.sing i ^ 2 + lam2)) *
    op.Usenᵀ

/-- Modelled from the spec: whitened sensor data with the nave convention
applied.  The noise covariance of an average of `nave` trials scales by
`1 / nave`, so the whitener scales by `sqrt nave`; the applier divides out the
operator's built-in assumption `nave0` and reapplies the caller-supplied
`nave`, giving the factor `sqrt (nave / nave0)` (step 1 and step 5 of the
applier). -/
def whitenedData (op : InvOp m p nOri r) (nave : ℕ)
    (data : Matrix (Fin m) (Fin T) ℝ) : Matrix (Fin m) (Fin T) ℝ :=
  Real.sqrt ((nave : ℝ) / (op.nave0 : ℝ)) • (op.whitener * data)

/-- The MNE source estimate in vector (per orientation component) form:
kernel applied to the whitened data. -/
def mneVec (op : InvOp m p nOri r) (lam2 : ℝ) (nave : ℕ)
    (data : Matrix (Fin m) (Fin T) ℝ) :
    Matrix (Fin p × Fin nOri) (Fin T) ℝ :=
  kernel op lam2 * whitenedData op nave data

/-- Noise variance of the MNE estimate at one source location under whitened
unit noise: the sum over the location's orientation components of the squared
kernel rows (the diagonal entries entering the dSPM normalization). -/
def noiseVar (op : InvOp m p nOri r) (lam2 : ℝ) (loc : Fin p) : ℝ :=
  ∑ o : Fin nOri, ∑ j : Fin m, kernel op lam2 (loc, o) j ^ 2

/-- Modelled from the spec: the dSPM normalization factor of one source
location — divide the location's time series by the square root of its
resolution-matrix diagonal (noise-normalized estimate). -/
def dspmNorm (op : InvOp m p nOri r) (lam2 : ℝ) (loc : Fin p) : ℝ :=
  1 / Real.sqrt (noiseVar op lam2 loc)

/-- The whitened prior-weighted forward model reconstructed from the stored
SVD factors. -/
def gainW (op : InvOp m p nOri r) : Matrix (Fin m) (Fin p × Fin nOri) ℝ :=
  op.Usen * Matrix.diagonal op.sing * op.Vsrcᵀ

/-- Modelled from the spec: the sLORETA normalization factor of one source
location — divide by the square root of the diagonal of the resolution matrix
(kernel composed with the forward model) summed over the location's
orientation components. -/
def sloretaNorm (op : InvOp m p nOri r) (lam2 : ℝ) (loc : Fin p) : ℝ :=
  1 / Real.sqrt (∑ o : Fin nOri, (kernel op lam2 * gainW op) (loc, o) (loc, o))

/-- Method-specific per-location scaling (step 3 of the applier): MNE applies
no further scaling, dSPM and sLORETA divide by their noise-normalization
factors. -/
def methodScale (op : InvOp m p nOri r) (lam2 : ℝ) :
    Method → Fin p → ℝ
  | Method.MNE => fun _ => 1
  | Method.dSPM => fun loc => dspmNorm op lam2 loc
  | Method.sLORETA => fun loc => sloretaNorm op lam2 loc

/-- Modelled from the spec: the applier in vector form — whiten the data,
apply the regularized pseudo-inverse solve, then apply the method-specific
per-location scaling.  Orientation pooling (step 4) is applied on top of this
by `pick_none` / `pick_normal`. -/
def applyInv (op : InvOp m p nOri r) (method : Method) (lam2 : ℝ) (nave : ℕ)
    (data : Matrix (Fin m) (Fin T) ℝ) :
    Matrix (Fin p × Fin nOri) (Fin T) ℝ :=
  Matrix.of fun s t =>
    methodScale op lam2 method s.1 * mneVec op lam2 nave data s t

/-- Modelled from the spec: orientation pooling for `pick_orientation = NONE`
— the magnitude (L2 norm) across the orientation components of each location,
per time sample. -/
def pick_none (est : Matrix (Fin p × Fin nOri) (Fin T) ℝ) :
    Matrix (Fin p) (Fin T) ℝ :=
  Matrix.of fun loc t => Real.sqrt (∑ o : Fin nOri, est (loc, o) t ^ 2)

/-- Modelled from the spec: orientation pooling for
`pick_orientation = NORMAL` — the signed value of the cortical-normal
component (the last of the three orientation components in a
surface-oriented forward model). -/
def pick_normal (est : Matrix (Fin p × Fin 3) (Fin T) ℝ) :
    Matrix (Fin p) (Fin T) ℝ :=
  Matrix.of fun loc t => est (loc, 2) t

/-- C8.  For every application with `pick_orientation = NONE` on an operator
with three orientation components per location (built with `loose > 0`),
every entry of the resulting source-estimate matrix is nonnegative, being the
L2 norm across the three orientation components. -/
theorem pick_none_nonneg (op : InvOp m p 3 r) (method : Method) (lam2 : ℝ)
    (nave : ℕ) (data : Matrix (Fin m) (Fin T) ℝ) (loc : Fin p) (t : Fin T) :
    0 ≤ pick_none (applyInv op method lam2 nave data) loc t :=
  Real.sqrt_nonneg _

/-- Scaling the number of averages by four scales the nave factor of the
whitened data by exactly two. -/
theorem naveFactor_four (nave nave0 : ℕ) :
    Real.sqrt (((4 * nave : ℕ) : ℝ) / (nave0 : ℝ)) =
      2 * Real.sqrt ((nave : ℝ) / (nave0 : ℝ)) := by
  push_cast
  rw [mul_div_assoc, Real.sqrt_mul (by norm_num : (0 : ℝ) ≤ 4),
    show (4 : ℝ) = 2 ^ 2 by norm_num, Real.sqrt_sq (by norm_num : (0 : ℝ) ≤ 2)]

/-- C3.  For a fixed input and a fixed built operator, multiplying the `nave`
parameter by four multiplies every value of the resulting dSPM source
estimate by exactly `2 = sqrt 4`, both per orientation component and after
`pick_orientation = NONE` pooling: the dSPM output scales with `sqrt nave`. -/
theorem dspm_scales_with_sqrt_nave (op : InvOp m p nOri r) (lam2 : ℝ)
    (nave : ℕ) (data : Matrix (Fin m) (Fin T) ℝ) (loc : Fin p) (o : Fin nOri)
    (t : Fin T) :
    applyInv op Method.dSPM lam2 (4 * nave) data (loc, o) t =
        2 * applyInv op Method.dSPM lam2 nave data (loc, o) t ∧
      pick_none (applyInv op Method.dSPM lam2 (4 * nave) data) loc t =
        2 * pick_none (applyInv op Method.dSPM lam2 nave data) loc t := by
  have hcomp : ∀ (s : Fin p × Fin nOri) (u : Fin T),
      applyInv op Method.dSPM lam2 (4 * nave) data s u =
        2 * applyInv op Method.dSPM lam2 nave data s u := by
    intro s u
    simp only [applyInv, mneVec, whitenedData, Matrix.of_apply, Matrix.mul_smul,
      Matrix.smul_apply, smul_eq_mul, naveFactor_four]
    ring
  refine ⟨hcomp (loc, o) t, ?_⟩
  simp only [pick_none, Matrix.of_apply]
  rw [Finset.sum_congr rfl fun o' _ => by rw [hcomp (loc, o') t]]
  have h4 : ∀ o' : Fin nOri,
      (2 * applyInv op Method.dSPM lam2 nave data (loc, o') t) ^ 2 =
        4 * applyInv op Method.dSPM lam2 nave data (loc, o') t ^ 2 := by
    intro o'; ring
  rw [Finset.sum_congr rfl fun o' _ => h4 o', ← Finset.mul_sum,
    Real.sqrt_mul (by norm_num : (0 : ℝ) ≤ 4),
    show (4 : ℝ) = 2 ^ 2 by norm_num, Real.sqrt_sq (by norm_num : (0 : ℝ) ≤ 2)]

/-- C1.  For every sensor-data matrix, operator and `lambda2 > 0`, the dSPM
output is, at each fixed source location, a scalar multiple of the MNE output
with the same (data, operator, lambda2): the ratio is the location's
noise-normalization factor `dspmNorm`, constant over time (and over the
location's orientation components, hence also after `pick_none` pooling). -/
theorem dspm_is_scalar_multiple_of_mne (op : InvOp m p nOri r) (lam2 : ℝ)
    (nave : ℕ) (data : Matrix (Fin m) (Fin T) ℝ) (hlam : 0 < lam2)
    (loc : Fin p) (o : Fin nOri) (t : Fin T) :
    applyInv op Method.dSPM lam2 nave data (loc, o) t =
        dspmNorm op lam2 loc * applyInv op Method.MNE lam2 nave data (loc, o) t ∧
      pick_none (applyInv op Method.dSPM lam2 nave data) loc t =
        dspmNorm op lam2 loc *
          pick_none (applyInv op Method.MNE lam2 nave data) loc t := by
  have hnn : 0 ≤ dspmNorm op lam2 loc := by
    unfold dspmNorm
    positivity
  constructor
  · simp [applyInv, methodScale]
  · simp only [pick_none, Matrix.of_apply]
    have hsq : ∀ o' : Fin nOri,
        applyInv op Method.dSPM lam2 nave data (loc, o') t ^ 2 =
          dspmNorm op lam2 loc ^ 2 *
            applyInv op Method.MNE lam2 nave data (loc, o') t ^ 2 := by
      intro o'
      simp only [applyInv, Matrix.of_apply, methodScale]
      ring
    rw [Finset.sum_congr rfl fun o' _ => hsq o', ← Finset.mul_sum,
      Real.sqrt_mul (sq_nonneg _), Real.sqrt_sq hnn]

/-- Concrete operator used by witnesses of the applier theorems. -/
def opEx1 : InvOp 1 1 1 1 where
  channels := [0]
  Usen := 1
  sing := fun _ => 1
  Vsrc := Matrix.of fun _ _ => 1
  whitener := 1
  nave0 := 1

/-- Data used by witnesses of the applier theorems. -/
def dataEx1 : Matrix (Fin 1) (Fin 1) ℝ :=
  Matrix.of fun _ _ => 1

/-- Witness for C1 at a concrete operator, data matrix and `lambda2 = 1/9`. -/
theorem dspm_is_scalar_multiple_of_mne_witness :
    applyInv opEx1 Method.dSPM (1 / 9) 1 dataEx1 (0, 0) 0 =
        dspmNorm opEx1 (1 / 9) 0 *
          applyInv opEx1 Method.MNE (1 / 9) 1 dataEx1 (0, 0) 0 ∧
      pick_none (applyInv opEx1 Method.dSPM (1 / 9) 1 dataEx1) 0 0 =
        dspmNorm opEx1 (1 / 9) 0 *
          pick_none (applyInv opEx1 Method.MNE (1 / 9) 1 dataEx1) 0 0 :=
  dspm_is_scalar_multiple_of_mne opEx1 (1 / 9) 1 dataEx1 (by norm_num) 0 0 0

/-- Scalar multiples of the identity matrix are constant diagonal matrices. -/
theorem smul_one_diagonal {ι : Type*} [Fintype ι] [DecidableEq ι] (c : ℝ) :
    c • (1 : Matrix ι ι ℝ) = Matrix.diagonal fun _ => c := by
  ext i j
  by_cases h : i = j <;>
    simp [Matrix.one_apply, Matrix.diagonal_apply, h]

/-- The stored factored solve equals the textbook Tikhonov-regularized
least-squares matrix: when the operator's SVD factors are genuine SVD factors
of the (whitened, prior-weighted) forward matrix `A`, the kernel
`Vsrc * diag (s / (s^2 + lambda2)) * Usenᵀ` coincides with
`(Aᵀ * A + lambda2 • 1)⁻¹ * Aᵀ`. -/
theorem ridge_eq_kernel (op : InvOp m p nOri r) (lam2 : ℝ)
    (A : Matrix (Fin m) (Fin p × Fin nOri) ℝ)
    (hA : A = gainW op)
    (hU : op.Usenᵀ * op.Usen = 1)
    (hV1 : op.Vsrcᵀ * op.Vsrc = 1)
    (hV2 : op.Vsrc * op.Vsrcᵀ = 1)
    (hlam : 0 < lam2) :
    (Aᵀ * A + lam2 • 1)⁻¹ * Aᵀ = kernel op lam2 := by
  subst hA
  have hpos : ∀ i : Fin r, op.sing i ^ 2 + lam2 ≠ 0 := by
    intro i
    positivity
  have hAt : (gainW op)ᵀ = op.Vsrc * Matrix.diagonal op.sing * op.Usenᵀ := by
    unfold gainW
    rw [Matrix.transpose_mul, Matrix.transpose_mul, Matrix.transpose_transpose,
      Matrix.diagonal_transpose, Matrix.mul_assoc]
  have hsq : (fun i => op.sing i * op.sing i) = fun i => op.sing i ^ 2 := by
    funext i
    ring
  have hAtA : (gainW op)ᵀ * gainW op =
      op.Vsrc * Matrix.diagonal (fun i => op.sing i ^ 2) * op.Vsrcᵀ := by
    rw [hAt]
    unfold gainW
    have h1 : op.Vsrc * Matrix.diagonal op.sing * op.Usenᵀ *
        (op.Usen * Matrix.diagonal op.sing * op.Vsrcᵀ) =
        op.Vsrc * (Matrix.diagonal op.sing * (op.Usenᵀ * op.Usen) *
          Matrix.diagonal op.sing) * op.Vsrcᵀ := by
      simp only [Matrix.mul_assoc]
    rw [h1, hU, Matrix.mul_one, Matrix.diagonal_mul_diagonal, hsq]
  have hlamI : lam2 • (1 : Matrix (Fin p × Fin nOri) (Fin p × Fin nOri) ℝ) =
      op.Vsrc * Matrix.diagonal (fun _ => lam2) * op.Vsrcᵀ := by
    rw [← smul_one_diagonal lam2, Matrix.mul_smul, Matrix.smul_mul,
      Matrix.mul_one, hV2]
  have hsum : (gainW op)ᵀ * gainW op + lam2 • 1 =
      op.Vsrc * Matrix.diagonal (fun i => op.sing i ^ 2 + lam2) * op.Vsrcᵀ := by
    rw [hAtA, hlamI, (Matrix.diagonal_add _ _).symm, Matrix.mul_add,
      Matrix.add_mul]
  have hinv : ((gainW op)ᵀ * gainW op + lam2 • 1)⁻¹ =
      op.Vsrc * Matrix.diagonal (fun i => (op.sing i ^ 2 + lam2)⁻¹) * op.Vsrcᵀ := by
    apply Matrix.inv_eq_right_inv
    rw [hsum, sandwich_mul op.Vsrc hV1]
    have hone : (fun i => (op.sing i ^ 2 + lam2) * (op.sing i ^ 2 + lam2)⁻¹) =
        fun _ : Fin r => (1 : ℝ) := by
      funext i
      exact mul_inv_cancel₀ (hpos i)
    rw [hone, Matrix.diagonal_one, Matrix.mul_one, hV2]
  rw [hinv, hAt]
  have h2 : op.Vsrc * Matrix.diagonal (fun i => (op.sing i ^ 2 + lam2)⁻¹) *
      op.Vsrcᵀ * (op.Vsrc * Matrix.diagonal op.sing * op.Usenᵀ) =
      op.Vsrc * (Matrix.diagonal (fun i => (op.sing i ^ 2 + lam2)⁻¹) *
        (op.Vsrcᵀ * op.Vsrc) * Matrix.diagonal op.sing) * op.Usenᵀ := by
    simp only [Matrix.mul_assoc]
  have hdiv : (fun i => (op.sing i ^ 2 + lam2)⁻¹ * op.sing i) =
      fun i => op.sing i / (op.sing i ^ 2 + lam2) := by
    funext i
    rw [div_eq_inv_mul]
  rw [h2, hV1, Matrix.mul_one, Matrix.diagonal_mul_diagonal, hdiv]
  unfold kernel
  rfl

/-- C2.  In the concrete scenario of five sensors, two fixed-orientation
source locations, identity noise covariance (whitener = identity) and
`lambda2 = 1/9`, applying the inverse with method `MNE` to a unit-impulse
sensor vector returns exactly the regularized least-squares solution
`(Aᵀ A + lambda2 I)⁻¹ Aᵀ b`, where `A` is the forward matrix held by the
operator. -/
theorem mne_equals_regularized_least_squares (op : InvOp 5 2 1 2)
    (A : Matrix (Fin 5) (Fin 2 × Fin 1) ℝ) (k : Fin 5)
    (hA : A = gainW op)
    (hW : op.whitener = 1)
    (hnave : op.nave0 ≠ 0)
    (hU : op.Usenᵀ * op.Usen = 1)
    (hV1 : op.Vsrcᵀ * op.Vsrc = 1)
    (hV2 : op.Vsrc * op.Vsrcᵀ = 1) :
    applyInv op Method.MNE (1 / 9) op.nave0
        (Matrix.of fun j (_ : Fin 1) => if j = k then (1 : ℝ) else 0) =
      (Aᵀ * A + ((1 : ℝ) / 9) • 1)⁻¹ * Aᵀ *
        Matrix.of fun j (_ : Fin 1) => if j = k then (1 : ℝ) else 0 := by
  have hridge := ridge_eq_kernel op (1 / 9) A hA hU hV1 hV2 (by norm_num)
  have hwd : whitenedData op op.nave0
      (Matrix.of fun j (_ : Fin 1) => if j = k then (1 : ℝ) else 0) =
      Matrix.of fun j (_ : Fin 1) => if j = k then (1 : ℝ) else 0 := by
    unfold whitenedData
    rw [hW, Matrix.one_mul,
      div_self (show ((op.nave0 : ℕ) : ℝ) ≠ 0 by exact_mod_cast hnave),
      Real.sqrt_one, one_smul]
  have happ : applyInv op Method.MNE (1 / 9) op.nave0
      (Matrix.of fun j (_ : Fin 1) => if j = k then (1 : ℝ) else 0) =
      kernel op (1 / 9) *
        Matrix.of fun j (_ : Fin 1) => if j = k then (1 : ℝ) else 0 := by
    ext s t
    simp [applyInv, methodScale, mneVec, hwd]
  rw [happ, hridge]

/-- Concrete operator for the C2 witness: five sensors, two fixed-orientation
sources, identity whitener, singular values `3` and `2`, axis-aligned
singular vectors. -/
def opEx2 : InvOp 5 2 1 2 where
  channels := [0, 1, 2, 3, 4]
  Usen := !![1, 0; 0, 1; 0, 0; 0, 0; 0, 0]
  sing := ![3, 2]
  Vsrc := Matrix.of fun s j => !![(1 : ℝ), 0; 0, 1] s.1 j
  whitener := 1
  nave0 := 1

/-- Witness for C2 at the concrete operator `opEx2` and the unit impulse on
the first sensor. -/
theorem mne_equals_regularized_least_squares_witness :
    applyInv opEx2 Method.MNE (1 / 9) opEx2.nave0
        (Matrix.of fun j (_ : Fin 1) => if j = (0 : Fin 5) then (1 : ℝ) else 0) =
      ((gainW opEx2)ᵀ * gainW opEx2 + ((1 : ℝ) / 9) • 1)⁻¹ * (gainW opEx2)ᵀ *
        Matrix.of fun j (_ : Fin 1) => if j = (0 : Fin 5) then (1 : ℝ) else 0 :=
  mne_equals_regularized_least_squares opEx2 (gainW opEx2) 0 rfl rfl
    (by norm_num [opEx2])
    (by
      ext i j
      simp only [opEx2, Matrix.mul_apply, Matrix.transpose_apply,
        Fin.sum_univ_five, Matrix.one_apply]
      fin_cases i <;> fin_cases j <;>
        simp [Matrix.vecHead, Matrix.vecTail])
    (by
      ext i j
      simp only [opEx2, Matrix.mul_apply, Matrix.transpose_apply,
        Matrix.of_apply, Fintype.sum_prod_type, Fin.sum_univ_two,
        Fin.sum_univ_one, Matrix.one_apply]
      fin_cases i <;> fin_cases j <;>
        simp [Matrix.vecHead, Matrix.vecTail])
    (by
      ext s u
      simp only [opEx2, Matrix.mul_apply, Matrix.transpose_apply,
        Matrix.of_apply, Fin.sum_univ_two, Matrix.one_apply]
      obtain ⟨a, b⟩ := s
      obtain ⟨c, d⟩ := u
      fin_cases a <;> fin_cases c <;> fin_cases b <;> fin_cases d <;>
        simp [Matrix.vecHead, Matrix.vecTail, Prod.ext_iff])

/-! ### Inverse operator builder -/

/-- Modelled from the spec: the builder's error taxonomy. -/
inductive BuildError
  | incompatibleForward
  | degenerateSourceSpace
deriving DecidableEq

/-- The forward model with its sensor dimension whitened by the covariance's
whitening transform. -/
def whitenedGain (fwd : Forward m p) (cov : NoiseCov m) (floor : ℝ) :
    Matrix (Fin m) (Fin p × Fin 3) ℝ :=
  whitenMat cov floor * fwd.gain

/-- Baseline sensitivity of a source location: the squared norm of its
whitened leadfield columns over the three orientation components. -/
def sensitivity (fwd : Forward m p) (cov : NoiseCov m) (floor : ℝ)
    (loc : Fin p) : ℝ :=
  ∑ o : Fin 3, ∑ i : Fin m, whitenedGain fwd cov floor i (loc, o) ^ 2

/-- Modelled from the spec: the depth-weighting prior — scale each source
location's leadfield columns inversely with their baseline sensitivity, by a
power controlled by `depth`. -/
def depthWeight (fwd : Forward m p) (cov : NoiseCov m) (floor depth : ℝ)
    (loc : Fin p) : ℝ :=
  sensitivity fwd cov floor loc ^ (-depth)

/-- The cortical-normal orientation component of a surface-oriented forward
model is the last of the three components. -/
def normalComponent : Fin 3 := 2

/-- Modelled from the spec: the orientation looseness prior — the variance
prior of the tangential components is shrunk by the factor `loose` relative
to the normal component, so their amplitudes scale by `sqrt loose`. -/
def looseScale (loose : ℝ) (o : Fin 3) : ℝ :=
  if o = normalComponent then 1 else Real.sqrt loose

/-- Whitened, depth-weighted forward model (free orientation). -/
def weightedGain (fwd : Forward m p) (cov : NoiseCov m) (floor depth : ℝ) :
    Matrix (Fin m) (Fin p × Fin 3) ℝ :=
  Matrix.of fun i s =>
    depthWeight fwd cov floor depth s.1 * whitenedGain fwd cov floor i s

/-- Modelled from the spec: the built operator before SVD factorization — the
whitening transform together with the whitened, prior-weighted forward model
and the number of orientation components kept per source location. -/
structure BuiltInv (m p : ℕ) where
  oriPerLoc : ℕ
  whitener : Matrix (Fin m) (Fin m) ℝ
  gainPrior : Matrix (Fin m) (Fin p × Fin oriPerLoc) ℝ

/-- Modelled from the spec: `InverseOperatorBuilder.build`.  Fails with
`incompatibleForward` when the forward and covariance channel sets do not
match after intersection (empty intersection), with `degenerateSourceSpace`
when the forward model has zero usable source locations; otherwise applies
the whitener and the depth and looseness priors, collapsing to a single
fixed-orientation component per location when `loose = 0` and keeping three
components otherwise. -/
def make_inverse_operator (fwd : Forward m p) (cov : NoiseCov m)
    (loose depth floor : ℝ) : Except BuildError (BuiltInv m p) :=
  if fwd.channels ∩ cov.channels = [] then
    Except.error BuildError.incompatibleForward
  else if p = 0 then
    Except.error BuildError.degenerateSourceSpace
  else if loose = 0 then
    Except.ok
      { oriPerLoc := 1
        whitener := whitenMat cov floor
        gainPrior := Matrix.of fun i s =>
          weightedGain fwd cov floor depth i (s.1, normalComponent) }
  else
    Except.ok
      { oriPerLoc := 3
        whitener := whitenMat cov floor
        gainPrior := Matrix.of fun i s =>
          looseScale loose s.2 * weightedGain fwd cov floor depth i s }

/-- C4.  When building succeeds, `loose = 0` produces exactly one orientation
component per source location and `loose = 1` produces exactly three. -/
theorem loose_orientation_components (fwd : Forward m p) (cov : NoiseCov m)
    (depth floor : ℝ)
    (hch : fwd.channels ∩ cov.channels ≠ [])
    (hp : p ≠ 0) :
    Except.map (fun inv : BuiltInv m p => inv.oriPerLoc)
        (make_inverse_operator fwd cov 0 depth floor) = Except.ok 1 ∧
      Except.map (fun inv : BuiltInv m p => inv.oriPerLoc)
        (make_inverse_operator fwd cov 1 depth floor) = Except.ok 3 := by
  unfold make_inverse_operator
  rw [if_neg hch, if_neg hch, if_neg hp, if_neg hp, if_pos rfl,
    if_neg (by norm_num : ¬(1 : ℝ) = 0)]
  exact ⟨rfl, rfl⟩

/-- Forward model used by the builder witnesses. -/
def fwdEx : Forward 1 1 where
  channels := [0]
  gain := Matrix.of fun _ _ => 1

/-- Covariance used by the builder witnesses (identity, one channel). -/
def covExB : NoiseCov 1 where
  channels := [0]
  mat := 1
  eigvec := 1
  eigval := fun _ => 1

/-- Witness for C4 at a concrete forward model and covariance that build
successfully. -/
theorem loose_orientation_components_witness :
    Except.map (fun inv : BuiltInv 1 1 => inv.oriPerLoc)
        (make_inverse_operator fwdEx covExB 0 1 (1 / 2)) = Except.ok 1 ∧
      Except.map (fun inv : BuiltInv 1 1 => inv.oriPerLoc)
        (make_inverse_operator fwdEx covExB 1 1 (1 / 2)) = Except.ok 3 :=
  loose_orientation_components fwdEx covExB 1 (1 / 2)
    (by simp [fwdEx, covExB, List.inter_eq_nil_iff_disjoint]) (by norm_num)

/-- C6.  For every forward model whose channel set is disjoint from the noise
covariance's channel set, the builder fails with `incompatibleForward` and
does not return an operator. -/
theorem build_fails_on_disjoint_channels (fwd : Forward m p) (cov : NoiseCov m)
    (loose depth floor : ℝ)
    (hdis : List.Disjoint fwd.channels cov.channels) :
    make_inverse_operator fwd cov loose depth floor =
      Except.error BuildError.incompatibleForward := by
  unfold make_inverse_operator
  rw [if_pos (List.inter_eq_nil_iff_disjoint.mpr hdis)]

/-- Forward model with channels disjoint from `covExB`'s. -/
def fwdDis : Forward 1 1 where
  channels := [7]
  gain := Matrix.of fun _ _ => 1

/-- Witness for C6: a concrete forward/covariance pair with disjoint channel
sets on which the builder returns the `incompatibleForward` error. -/
theorem build_fails_on_disjoint_channels_witness :
    make_inverse_operator fwdDis covExB 0 1 (1 / 2) =
      Except.error BuildError.incompatibleForward :=
  build_fails_on_disjoint_channels fwdDis covExB 0 1 (1 / 2)
    (by simp [fwdDis, covExB, List.disjoint_left])

/-- C5.  For every valid noise covariance (orthogonal eigenvector matrix) and
every sensor-data matrix, applying the whitening transform and then its
inverse restricted to the retained rank reconstructs exactly the component of
the data lying in the retained eigen-subspace; the discarded-rank nullspace
component is lost. -/
theorem whitener_roundtrip_retained (cov : NoiseCov n) (floor : ℝ)
    (data : Matrix (Fin n) (Fin T) ℝ)
    (hOrth : cov.eigvecᵀ * cov.eigvec = 1) (hfloor : 0 ≤ floor) :
    unwhitenMat cov floor * (whitenMat cov floor * data) =
      retainedProj cov floor * data := by
  have hd : (fun i =>
      (if cov.retained floor i then Real.sqrt (max (cov.eigval i) floor) else 0) *
        if cov.retained floor i then 1 / Real.sqrt (max (cov.eigval i) floor) else 0) =
      (fun i => if cov.retained floor i then (1 : ℝ) else 0) := by
    funext i
    by_cases h : cov.retained floor i
    · have hev : 0 < cov.eigval i := lt_of_le_of_lt hfloor h
      have hmax : 0 < max (cov.eigval i) floor := lt_max_of_lt_left hev
      have hs : Real.sqrt (max (cov.eigval i) floor) ≠ 0 :=
        ne_of_gt (Real.sqrt_pos.mpr hmax)
      simp [h, mul_one_div, div_self hs, mul_inv_cancel₀ hs]
    · simp [h]
  have key : unwhitenMat cov floor * whitenMat cov floor = retainedProj cov floor := by
    unfold unwhitenMat whitenMat retainedProj
    rw [sandwich_mul cov.eigvec hOrth, hd]
  rw [← Matrix.mul_assoc, key]

/-- Concrete instance for `whitener_roundtrip_retained`: a two-channel
covariance with identity eigenvectors, eigenvalues `1` (retained) and `0`
(discarded below the floor `1/2`). -/
def covEx5 : NoiseCov 2 where
  channels := [0, 1]
  mat := Matrix.diagonal ![1, 0]
  eigvec := 1
  eigval := ![1, 0]

/-- Data used by the `whitener_roundtrip_retained` witness. -/
def dataEx5 : Matrix (Fin 2) (Fin 1) ℝ :=
  Matrix.of fun _ _ => 1

/-- Witness for C5 at a concrete covariance, floor and data matrix. -/
theorem whitener_roundtrip_retained_witness :
    unwhitenMat covEx5 (1 / 2) * (whitenMat covEx5 (1 / 2) * dataEx5) =
      retainedProj covEx5 (1 / 2) * dataEx5 :=
  whitener_roundtrip_retained covEx5 (1 / 2) dataEx5
    (by simp [covEx5]) (by norm_num)

/-! ### Source estimates, labels and averaging -/

/-- Modelled from the spec: a source estimate — activation values per source
location and time sample, together with the source-space vertex identifier of
each row. -/
structure SrcEst (p T : ℕ) where
  vertno : Fin p → ℕ
  data : Matrix (Fin p) (Fin T) ℝ

/-- Modelled from the spec: a label — an ordered subset of source-space
vertex identifiers. -/
structure Label where
  verts : List ℕ

/-- Modelled from the spec: restriction of a source estimate to a label —
one output row per label vertex, in the label's vertex order, selecting the
estimate row carrying that vertex identifier. -/
def SrcEst.in_label (stc : SrcEst p T) (lab : Label) :
    SrcEst lab.verts.length T where
  vertno := fun j => lab.verts.get j
  data := Matrix.of fun j t =>
    ∑ i : Fin p, if stc.vertno i = lab.verts.get j then stc.data i t else 0

/-- C7.  Restricting to a label yields a source estimate with exactly
`lab.verts.length` rows (the row index type of `(stc.in_label lab).data` is
`Fin lab.verts.length`), whose `j`-th row carries the label's `j`-th vertex
identifier and equals the input row with that identifier — the rows appear in
the label's vertex order. -/
theorem in_label_rows (stc : SrcEst p T) (lab : Label)
    (hinj : Function.Injective stc.vertno)
    (j : Fin lab.verts.length) (i : Fin p) (t : Fin T)
    (hi : stc.vertno i = lab.verts.get j) :
    (stc.in_label lab).vertno j = lab.verts.get j ∧
      (stc.in_label lab).data j t = stc.data i t := by
  refine ⟨rfl, ?_⟩
  have hiff : ∀ i' : Fin p, (stc.vertno i' = lab.verts.get j) ↔ i' = i := by
    intro i'
    constructor
    · intro h
      exact hinj (h.trans hi.symm)
    · intro h
      rw [h, hi]
  have hdata : (stc.in_label lab).data j t =
      ∑ i' : Fin p, if stc.vertno i' = lab.verts.get j then stc.data i' t else 0 :=
    rfl
  rw [hdata, Finset.sum_congr rfl fun i' _ => if_congr (hiff i') rfl rfl]
  simp

/-- Source estimate used by the `in_label_rows` witness. -/
def stcEx : SrcEst 2 1 where
  vertno := ![10, 20]
  data := !![3; 5]

/-- Label used by the `in_label_rows` witness. -/
def labEx : Label where
  verts := [20]

/-- Witness for C7: restricting a two-row estimate to a one-vertex label
selects exactly the matching row. -/
theorem in_label_rows_witness :
    (stcEx.in_label labEx).vertno ⟨0, by decide⟩ =
        labEx.verts.get ⟨0, by decide⟩ ∧
      (stcEx.in_label labEx).data ⟨0, by decide⟩ 0 = stcEx.data 1 0 :=
  in_label_rows stcEx labEx (by decide) ⟨0, by decide⟩ 1 0 (by decide)

/-- The source's trial averaging `mean_stc = np.sum(stcs) / len(stcs)`: the
entrywise mean across trials of equal-shape source-estimate data matrices. -/
def mean_stc {N : ℕ} (stcs : Fin N → Matrix (Fin q) (Fin T) ℝ) :
    Matrix (Fin q) (Fin T) ℝ :=
  Matrix.of fun i t => (∑ k, stcs k i t) / (N : ℝ)

/-- The source's label averaging `np.mean(data, axis=0)`: the mean across
label vertices (rows), one value per time sample. -/
def label_mean (M : Matrix (Fin q) (Fin T) ℝ) : Fin T → ℝ :=
  fun t => (∑ i, M i t) / (q : ℝ)

/-- Mean across trials of per-trial time series (`np.mean` over the trial
axis). -/
def trial_mean {N : ℕ} (vs : Fin N → Fin T → ℝ) : Fin T → ℝ :=
  fun t => (∑ k, vs k t) / (N : ℝ)

/-- C9.  For every non-empty family of equal-shape per-trial source
estimates, averaging across trials and then across label vertices gives the
same time series as averaging each trial across label vertices first and then
across trials: the two means commute. -/
theorem label_mean_trial_mean_commute {N : ℕ}
    (stcs : Fin N → Matrix (Fin q) (Fin T) ℝ) (hN : 0 < N) (t : Fin T) :
    label_mean (mean_stc stcs) t =
      trial_mean (fun k => label_mean (stcs k)) t := by
  unfold label_mean mean_stc trial_mean
  simp only [Matrix.of_apply]
  rw [← Finset.sum_div, ← Finset.sum_div, div_div, div_div, Finset.sum_comm,
    mul_comm]

/-- Trials used by the C9 witness. -/
def stcsEx : Fin 1 → Matrix (Fin 1) (Fin 1) ℝ :=
  fun _ => Matrix.of fun _ _ => 2

/-- Witness for C9 on a concrete non-empty family of trials. -/
theorem label_mean_trial_mean_commute_witness :
    label_mean (mean_stc stcsEx) 0 =
      trial_mean (fun k => label_mean (stcsEx k)) 0 :=
  label_mean_trial_mean_commute stcsEx (by norm_num) 0

/-- Modelled from the spec: `mne.label_sign_flip` — a per-vertex polarity
making the label's source orientations consistent, computed as the sign of
the dot product of each vertex's cortical normal with a reference
direction. -/
def label_sign_flip (normals : Fin q → Fin 3 → ℝ) (refDir : Fin 3 → ℝ) :
    Fin q → ℝ :=
  fun i => if 0 ≤ ∑ c, normals i c * refDir c then 1 else -1

/-- Application of a sign-flip vector to a source-estimate data matrix, as in
the source: `flip[:, np.newaxis] * mean_stc.data`. -/
def flip_apply (flip : Fin q → ℝ) (M : Matrix (Fin q) (Fin T) ℝ) :
    Matrix (Fin q) (Fin T) ℝ :=
  Matrix.of fun i t => flip i * M i t

/-- C10.  Every entry of a label's sign-flip vector is `+1` or `-1`; applying
the flip twice returns the original matrix, and applying it once leaves the
absolute value of every entry unchanged. -/
theorem label_sign_flip_involution (normals : Fin q → Fin 3 → ℝ)
    (refDir : Fin 3 → ℝ) (M : Matrix (Fin q) (Fin T) ℝ) (i : Fin q)
    (t : Fin T) :
    (label_sign_flip normals refDir i = 1 ∨
        label_sign_flip normals refDir i = -1) ∧
      flip_apply (label_sign_flip normals refDir)
        (flip_apply (label_sign_flip normals refDir) M) = M ∧
      |flip_apply (label_sign_flip normals refDir) M i t| = |M i t| := by
  have hpm : ∀ i' : Fin q, label_sign_flip normals refDir i' = 1 ∨
      label_sign_flip normals refDir i' = -1 := by
    intro i'
    unfold label_sign_flip
    split
    · exact Or.inl rfl
    · exact Or.inr rfl
  refine ⟨hpm i, ?_, ?_⟩
  · ext i' t'
    rcases hpm i' with h | h <;>
      simp [flip_apply, h]
  · rcases hpm i with h | h <;>
      simp [flip_apply, h, abs_neg]

end

end InverseEngine
